import Mathlib

/-!
Verification of the `minspan` crate: the function `minspan::span` finds the
shortest window of a reference sequence (`history`) that contains the query
sequence as an ordered, not necessarily contiguous, subsequence.

The Rust source is embedded shallowly.  Machine-level partiality (panicking
index accesses `query[keyindex]`, `start_indices[keyindex]`,
`start_indices[keyindex - 1]`, `start_indices[query.len() - 1]`, and the
`usize` subtractions `end - start`, `curr_end - curr_start`) is made explicit
with an `Except String` result: any out-of-bounds access or subtraction
underflow yields `Except.error`, so proving the function always returns
`Except.ok` establishes panic freedom.

The Rust loops are embedded as structural recursions:
  * `innerLoop` is `for keyindex in (0..query.len()).rev() { ... }`, called
    with fuel `query.len() - 1` so it visits `query.len() - 1, ..., 1, 0`;
  * `outerLoop` is `for (bodyindex, bodychr) in history.iter().enumerate()`.
-/

/-- Checked sequence read: Rust `xs[i]`, which panics when out of bounds. -/
def getChecked {β : Type} (xs : List β) (i : Nat) : Except String β :=
  match xs[i]? with
  | some v => Except.ok v
  | none => Except.error "index out of bounds"

/-- Checked sequence write: Rust `xs[i] = v`, which panics when out of bounds. -/
def setChecked {β : Type} (xs : List β) (i : Nat) (v : β) : Except String (List β) :=
  if i < xs.length then Except.ok (xs.set i v) else Except.error "index out of bounds"

/-- Checked `usize` subtraction: Rust `a - b`, which panics on underflow. -/
def subChecked (a b : Nat) : Except String Nat :=
  if b ≤ a then Except.ok (a - b) else Except.error "attempt to subtract with overflow"

namespace minspan

variable {α : Type} [DecidableEq α]

/-- The `best_span` update performed when a complete match `(start, e)` is
found (src/lib.rs lines 35-44):
`best_span = match best_span { None => Some(span), Some((curr_start, curr_end)) =>
  if end - start < curr_end - curr_start { Some(span) } else { Some((curr_start, curr_end)) } }`. -/
def updateBest (best : Option (Nat × Nat)) (sp : Nat × Nat) :
    Except String (Option (Nat × Nat)) :=
  match best with
  | none => Except.ok (some sp)
  | some (currStart, currEnd) => do
      let newLen ← subChecked sp.2 sp.1
      let currLen ← subChecked currEnd currStart
      if newLen < currLen then Except.ok (some sp) else Except.ok (some (currStart, currEnd))

/-- One iteration of the inner loop body (src/lib.rs lines 19-47) at query
index `keyindex = k`, scanning reference element `c = history[j]`:
if `query[k] == c` then `start_indices[k]` is set (to `Some(j)` at `k = 0`,
to `start_indices[k-1].map(|start| start)` otherwise), and when
`k == query.len() - 1` a complete match through `start_indices[query.len()-1]`
updates `best_span`. -/
def processKey (query : List α) (c : α) (j k : Nat)
    (si : List (Option Nat)) (best : Option (Nat × Nat)) :
    Except String (List (Option Nat) × Option (Nat × Nat)) := do
  let qk ← getChecked query k
  if qk = c then
    let newStart ←
      if k = 0 then
        Except.ok (some j)
      else do
        let prev ← getChecked si (k - 1)
        Except.ok (Option.map (fun start => start) prev)
    let si1 ← setChecked si k newStart
    if k = query.length - 1 then
      let top ← getChecked si1 (query.length - 1)
      match top with
      | some start => do
          let best1 ← updateBest best (start, j)
          Except.ok (si1, best1)
      | none => Except.ok (si1, best)
    else
      Except.ok (si1, best)
  else
    Except.ok (si, best)

/-- The inner loop `for keyindex in (0..query.len()).rev()`: with fuel `k`
it processes query indices `k, k-1, ..., 1, 0` in that (descending) order. -/
def innerLoop (query : List α) (c : α) (j : Nat) :
    Nat → List (Option Nat) → Option (Nat × Nat) →
    Except String (List (Option Nat) × Option (Nat × Nat))
  | 0, si, best => processKey query c j 0 si best
  | k + 1, si, best => do
      let st ← processKey query c j (k + 1) si best
      innerLoop query c j k st.1 st.2

/-- The outer loop `for (bodyindex, bodychr) in history.iter().enumerate()`,
with `j` the index of the first element of the remaining reference suffix. -/
def outerLoop (query : List α) :
    List α → Nat → List (Option Nat) → Option (Nat × Nat) →
    Except String (List (Option Nat) × Option (Nat × Nat))
  | [], _, si, best => Except.ok (si, best)
  | c :: rest, j, si, best => do
      let st ← innerLoop query c j (query.length - 1) si best
      outerLoop query rest (j + 1) st.1 st.2

/-- Embedding of `minspan::span` (src/lib.rs lines 5-52).  `query.is_empty()`
returns `Some((0, 0))` immediately; otherwise `start_indices` is initialised
to `vec![None; query.len()]`, `best_span` to `None`, the scan runs, and
`best_span` is returned. -/
def span (query history : List α) : Except String (Option (Nat × Nat)) :=
  if query.isEmpty then
    Except.ok (some (0, 0))
  else do
    let st ← outerLoop query history 0 (List.replicate query.length none) none
    Except.ok st.2

end minspan

/-- `Reaches q r k s e`: there is a strictly increasing chain of reference
indices `i_0 < i_1 < ... < i_k` with `i_0 = s`, `i_k = e`, and
`r[i_t] = q[t]` for every `t ≤ k`.  This is the "ordered subsequence match
between the window bounds" condition of the contract, for the query prefix
`q[0..=k]`. -/
inductive Reaches {α : Type} (q r : List α) : Nat → Nat → Nat → Prop where
  | base {a : α} {s : Nat} : q[0]? = some a → r[s]? = some a → Reaches q r 0 s s
  | step {k s e e' : Nat} {a : α} : Reaches q r k s e → e < e' →
      q[k + 1]? = some a → r[e']? = some a → Reaches q r (k + 1) s e'

namespace minspan

variable {α : Type} [DecidableEq α]

/-- Closed form of the value held by `start_indices[t]` after the whole inner
pass at scan position `j` with reference element `c`, in terms of the array
`si` before the pass: untouched unless `query[t] == c`; reset to `j` at
`t = 0`; inherited from the pre-pass `start_indices[t-1]` otherwise (the
descending iteration order guarantees slot `t - 1` is read before the pass
overwrites it). -/
def newVal (query : List α) (c : α) (j : Nat) (si : List (Option Nat)) (t : Nat) : Option Nat :=
  if query[t]? = some c then
    (if t = 0 then some j else (si[t - 1]?).join)
  else
    (si[t]?).join

/-- Pure closed form of `updateBest` (defined when neither subtraction
underflows): keep the strictly shorter span, ties keep the incumbent. -/
def updVal (best : Option (Nat × Nat)) (s e : Nat) : Option (Nat × Nat) :=
  match best with
  | none => some (s, e)
  | some (currStart, currEnd) =>
      if e - s < currEnd - currStart then some (s, e) else some (currStart, currEnd)

/-- The invariant carried across scan positions: after the scan has processed
reference positions `0, ..., j-1`,
1. `start_indices` still has one slot per query position;
2. (soundness) a recorded start `start_indices[k] = Some s` is witnessed by a
   chain for `q[0..=k]` starting at `s` and ending before `j`;
3. (maximality) any chain for `q[0..=k]` ending before `j` has start at most
   the recorded `start_indices[k]`;
4. (best soundness) a recorded `best_span = Some (s, e)` is a complete-match
   window ending before `j`;
5. (best minimality) any complete-match window ending before `j` is at least
   as long as the recorded `best_span`;
6. (first-found) any complete-match window ending strictly before the
   recorded `best_span`'s end is strictly longer than it. -/
def Inv (q r : List α) (j : Nat) (si : List (Option Nat)) (best : Option (Nat × Nat)) : Prop :=
  si.length = q.length ∧
  (∀ k s, si[k]? = some (some s) → ∃ e, e < j ∧ Reaches q r k s e) ∧
  (∀ k s e, e < j → Reaches q r k s e → ∃ s', si[k]? = some (some s') ∧ s ≤ s') ∧
  (∀ s e, best = some (s, e) → e < j ∧ Reaches q r (q.length - 1) s e) ∧
  (∀ s e, e < j → Reaches q r (q.length - 1) s e →
    ∃ bs be, best = some (bs, be) ∧ be - bs ≤ e - s) ∧
  (∀ bs be s e, best = some (bs, be) → Reaches q r (q.length - 1) s e → e < be →
    be - bs < e - s)

end minspan

section Sanity

example : minspan.span ([0, 1] : List Nat) [0, 1] = Except.ok (some (0, 1)) := rfl
example : minspan.span ([0] : List Nat) [0, 1] = Except.ok (some (0, 0)) := rfl
example : minspan.span ([0, 1] : List Nat) [0, 1, 0, 1, 2] = Except.ok (some (0, 1)) := rfl
example : minspan.span ([0, 0, 0] : List Nat) [0, 0, 0, 0, 0, 0] = Except.ok (some (0, 2)) := rfl
example : minspan.span ([9] : List Nat) [0, 1, 2] = Except.ok none := rfl
example : minspan.span ([] : List Nat) [] = Except.ok (some (0, 0)) := rfl
example : minspan.span ([0, 1, 2] : List Nat) [] = Except.ok none := rfl
example : minspan.span ([0, 1, 0] : List Nat) [0, 1, 0, 1, 0] = Except.ok (some (0, 2)) := rfl

end Sanity

section CheckedLemmas

variable {β : Type}

lemma getElem?_of_lt (xs : List β) (i : Nat) (h : i < xs.length) :
    ∃ v, xs[i]? = some v :=
  ⟨xs[i], List.getElem?_eq_getElem h⟩

lemma getChecked_of_some {xs : List β} {i : Nat} {v : β} (h : xs[i]? = some v) :
    getChecked xs i = Except.ok v := by
  simp only [getChecked]
  rw [h]

lemma setChecked_of_lt {xs : List β} {i : Nat} (v : β) (h : i < xs.length) :
    setChecked xs i v = Except.ok (xs.set i v) := by
  simp [setChecked, h]

lemma subChecked_of_le {a b : Nat} (h : b ≤ a) : subChecked a b = Except.ok (a - b) := by
  simp [subChecked, h]

lemma getElem?_set_self {xs : List β} {i : Nat} (h : i < xs.length) (v : β) :
    (xs.set i v)[i]? = some v := by
  rcases getElem?_of_lt xs i h with ⟨w, hw⟩
  rw [List.getElem?_set_self', hw]
  rfl

end CheckedLemmas

section ReachesLemmas

variable {α : Type} {q r t : List α}

lemma Reaches.start_le_end {k s e : Nat} (h : Reaches q r k s e) : s ≤ e := by
  induction h with
  | base _ _ => exact Nat.le_refl _
  | step _ hlt _ _ ih => exact Nat.le_trans ih (Nat.le_of_lt hlt)

lemma Reaches.end_lt_length {k s e : Nat} (h : Reaches q r k s e) : e < r.length := by
  cases h with
  | base _ hr => exact (List.getElem?_eq_some.mp hr).1
  | step _ _ _ hr => exact (List.getElem?_eq_some.mp hr).1

lemma Reaches.level_lt_length {k s e : Nat} (h : Reaches q r k s e) : k < q.length := by
  cases h with
  | base hq _ => exact (List.getElem?_eq_some.mp hq).1
  | step _ _ hq _ => exact (List.getElem?_eq_some.mp hq).1

lemma Reaches.start_matches {k s e : Nat} (h : Reaches q r k s e) :
    ∃ a, q[0]? = some a ∧ r[s]? = some a := by
  induction h with
  | base hq hr => exact ⟨_, hq, hr⟩
  | step _ _ _ _ ih => exact ih

lemma Reaches.end_matches {k s e : Nat} (h : Reaches q r k s e) :
    ∃ a, q[k]? = some a ∧ r[e]? = some a := by
  cases h with
  | base hq hr => exact ⟨_, hq, hr⟩
  | step _ _ hq hr => exact ⟨_, hq, hr⟩

lemma Reaches.zero_eq {s e : Nat} (h : Reaches q r 0 s e) : s = e := by
  cases h with
  | base _ _ => rfl

lemma Reaches.succ_chop {k s e : Nat} (h : Reaches q r (k + 1) s e) :
    ∃ e1, e1 < e ∧ Reaches q r k s e1 := by
  cases h with
  | step h1 hlt _ _ => exact ⟨_, hlt, h1⟩

/-- Chains truncate: a chain through `q[0..=k]` restricts to one through
`q[0..=d]`, for any `d ≤ k`, with the same start and an end at most `e`. -/
lemma Reaches.chop {k d s e : Nat} (h : Reaches q r k s e) (hd : d ≤ k) :
    ∃ e1, e1 ≤ e ∧ Reaches q r d s e1 := by
  induction h with
  | base hq hr =>
      cases Nat.le_zero.mp hd
      exact ⟨_, Nat.le_refl _, Reaches.base hq hr⟩
  | @step k s e e' a h1 hlt hq hr ih =>
      rcases Nat.lt_or_ge d (k + 1) with hcase | hcase
      · rcases ih (Nat.le_of_lt_succ hcase) with ⟨e1, he1, hch⟩
        exact ⟨e1, Nat.le_trans he1 (Nat.le_of_lt hlt), hch⟩
      · cases Nat.le_antisymm hd hcase
        exact ⟨e', Nat.le_refl _, Reaches.step h1 hlt hq hr⟩

lemma Reaches.append_right {k s e : Nat} (h : Reaches q r k s e) :
    Reaches q (r ++ t) k s e := by
  induction h with
  | base hq hr =>
      exact Reaches.base hq
        (by rw [List.getElem?_append_left (List.getElem?_eq_some.mp hr).1]; exact hr)
  | step _ hlt hq hr ih =>
      exact Reaches.step ih hlt hq
        (by rw [List.getElem?_append_left (List.getElem?_eq_some.mp hr).1]; exact hr)

end ReachesLemmas

namespace minspan

variable {α : Type} [DecidableEq α]

lemma ok_bind {A B : Type} (a : A) (f : A → Except String B) :
    (Except.ok a >>= f : Except String B) = f a := rfl

lemma updateBest_eq {best : Option (Nat × Nat)} {s e : Nat}
    (hwf : ∀ cs ce, best = some (cs, ce) → cs ≤ ce) (hse : s ≤ e) :
    updateBest best (s, e) = Except.ok (updVal best s e) := by
  match best with
  | none => rfl
  | some (cs, ce) =>
      have hc : cs ≤ ce := hwf cs ce rfl
      simp only [updateBest, updVal, subChecked_of_le hse, subChecked_of_le hc, ok_bind]
      by_cases hlt : e - s < ce - cs <;> simp [hlt]

lemma updVal_spec (best : Option (Nat × Nat)) (s e : Nat) :
    ∃ bs be, updVal best s e = some (bs, be) ∧ be - bs ≤ e - s ∧
      (∀ cs ce, best = some (cs, ce) → be - bs ≤ ce - cs) ∧
      (updVal best s e = some (s, e) ∨ updVal best s e = best) := by
  match best with
  | none =>
      refine ⟨s, e, rfl, Nat.le_refl _, ?_, Or.inl rfl⟩
      intro cs ce h
      cases h
  | some (cs, ce) =>
      by_cases hlt : e - s < ce - cs
      · refine ⟨s, e, by simp [updVal, hlt], Nat.le_refl _, ?_, Or.inl (by simp [updVal, hlt])⟩
        intro cs' ce' h
        cases h
        exact Nat.le_of_lt hlt
      · refine ⟨cs, ce, by simp [updVal, hlt], Nat.le_of_not_lt hlt, ?_,
          Or.inr (by simp [updVal, hlt])⟩
        intro cs' ce' h
        cases h
        exact Nat.le_refl _

lemma processKey_not_hit {q : List α} {c qk : α} {j k : Nat}
    {si : List (Option Nat)} {best : Option (Nat × Nat)}
    (hq : q[k]? = some qk) (hne : qk ≠ c) :
    processKey q c j k si best = Except.ok (si, best) := by
  simp [processKey, getChecked_of_some hq, ok_bind, hne]

lemma processKey_hit_not_top {q : List α} {c : α} {j k : Nat}
    {si : List (Option Nat)} {best : Option (Nat × Nat)}
    (hlen : si.length = q.length) (hk : k < q.length) (htop : k ≠ q.length - 1)
    (hq : q[k]? = some c) :
    processKey q c j k si best = Except.ok (si.set k (newVal q c j si k), best) := by
  have hknew : newVal q c j si k =
      if k = 0 then some j else (si[k - 1]?).join := by
    simp [newVal, hq]
  by_cases hk0 : k = 0
  · subst hk0
    simp [processKey, getChecked_of_some hq, ok_bind,
      setChecked_of_lt _ (hlen ▸ hk), htop, hknew]
  · have hk1 : k - 1 < si.length := by omega
    rcases getElem?_of_lt si (k - 1) hk1 with ⟨prev, hprev⟩
    simp [processKey, getChecked_of_some hq, ok_bind, hk0,
      getChecked_of_some hprev, setChecked_of_lt _ (hlen ▸ hk), htop, hknew, hprev,
      Option.map_id']

end minspan

namespace minspan

variable {α : Type} [DecidableEq α]

lemma processKey_hit_top {q : List α} {c : α} {j : Nat}
    {si : List (Option Nat)} {best : Option (Nat × Nat)}
    (hlen : si.length = q.length) (hm : 1 ≤ q.length)
    (hq : q[q.length - 1]? = some c)
    (hsafe : ∀ s, newVal q c j si (q.length - 1) = some s → s ≤ j)
    (hwf : ∀ cs ce, best = some (cs, ce) → cs ≤ ce) :
    processKey q c j (q.length - 1) si best =
      Except.ok (si.set (q.length - 1) (newVal q c j si (q.length - 1)),
        match newVal q c j si (q.length - 1) with
        | some s => updVal best s j
        | none => best) := by
  have hklt : q.length - 1 < si.length := by omega
  by_cases hk0 : q.length - 1 = 0
  · have hq0 : q[0]? = some c := hk0 ▸ hq
    have hnv : newVal q c j si (q.length - 1) = some j := by
      rw [hk0]
      simp [newVal, hq0]
    rw [hnv]
    have hget : (si.set 0 (some j))[0]? = some (some j) :=
      getElem?_set_self (by omega) _
    simp [processKey, getChecked_of_some hq, getChecked_of_some hq0, ok_bind, hk0,
      setChecked_of_lt _ hklt, setChecked_of_lt _ (show 0 < si.length by omega),
      getChecked_of_some hget, updateBest_eq hwf (Nat.le_refl j)]
  · have hk1 : q.length - 1 - 1 < si.length := by omega
    rcases getElem?_of_lt si (q.length - 1 - 1) hk1 with ⟨prev, hprev⟩
    have hnv : newVal q c j si (q.length - 1) = prev := by
      simp [newVal, hq, hk0, hprev]
    rw [hnv]
    match hp : prev with
    | none =>
        have hget : (si.set (q.length - 1) (none : Option Nat))[q.length - 1]? =
            some none := getElem?_set_self hklt _
        simp [processKey, getChecked_of_some hq, ok_bind, hk0,
          getChecked_of_some hprev, Option.map_id', setChecked_of_lt _ hklt,
          getChecked_of_some hget]
    | some s =>
        have hsj : s ≤ j := hsafe s (hp ▸ hnv)
        have hget : (si.set (q.length - 1) (some s))[q.length - 1]? =
            some (some s) := getElem?_set_self hklt _
        simp [processKey, getChecked_of_some hq, ok_bind, hk0,
          getChecked_of_some hprev, Option.map_id', setChecked_of_lt _ hklt,
          getChecked_of_some hget, updateBest_eq hwf hsj]

end minspan

namespace minspan

variable {α : Type} [DecidableEq α]

lemma newVal_set_high {q : List α} {c : α} {j : Nat} {si : List (Option Nat)}
    {i t : Nat} (v : Option Nat) (ht : t < i) :
    newVal q c j (si.set i v) t = newVal q c j si t := by
  unfold newVal
  rw [List.getElem?_set_ne (by omega : i ≠ t), List.getElem?_set_ne (by omega : i ≠ t - 1)]

/-- Closed form of the inner loop on fuel `k < query.len() - 1`: slots above
`k` are untouched, slots `t ≤ k` take their `newVal`, and `best_span` is not
consulted (the completion check sits at `keyindex = query.len() - 1` only). -/
lemma innerLoop_low {q : List α} {c : α} {j : Nat} :
    ∀ (k : Nat) (si : List (Option Nat)) (best : Option (Nat × Nat)),
      si.length = q.length → k + 1 < q.length →
      ∃ si', innerLoop q c j k si best = Except.ok (si', best) ∧
        si'.length = q.length ∧
        (∀ t, k < t → si'[t]? = si[t]?) ∧
        (∀ t, t ≤ k → si'[t]? = some (newVal q c j si t)) := by
  intro k
  induction k with
  | zero =>
      intro si best hlen hk
      have h0 : (0 : Nat) < q.length := by omega
      rcases getElem?_of_lt q 0 h0 with ⟨q0, hq0⟩
      by_cases hqc : q0 = c
      · have hq0c : q[0]? = some c := hqc ▸ hq0
        have hpk : processKey q c j 0 si best =
            Except.ok (si.set 0 (newVal q c j si 0), best) :=
          processKey_hit_not_top hlen h0 (by omega : (0 : Nat) ≠ q.length - 1) hq0c
        refine ⟨si.set 0 (newVal q c j si 0), hpk, by simp [hlen], ?_, ?_⟩
        · intro t ht
          exact List.getElem?_set_ne (by omega)
        · intro t ht
          have ht0 : t = 0 := by omega
          subst ht0
          exact getElem?_set_self (by omega) _
      · refine ⟨si, processKey_not_hit hq0 hqc, hlen, fun t _ => rfl, ?_⟩
        intro t ht
        have ht0 : t = 0 := by omega
        subst ht0
        have hnv : newVal q c j si 0 = (si[0]?).join := by
          have hne : ¬ q[0]? = some c := by
            rw [hq0]
            intro h
            exact hqc (Option.some.inj h)
          simp [newVal, hne]
        rcases getElem?_of_lt si 0 (by omega) with ⟨v, hv⟩
        rw [hnv, hv]
        rfl
  | succ k ih =>
      intro si best hlen hk
      have hk1 : k + 1 < q.length := by omega
      rcases getElem?_of_lt q (k + 1) hk1 with ⟨qk, hqk⟩
      by_cases hqc : qk = c
      · have hqkc : q[k + 1]? = some c := hqc ▸ hqk
        have hpk : processKey q c j (k + 1) si best =
            Except.ok (si.set (k + 1) (newVal q c j si (k + 1)), best) :=
          processKey_hit_not_top hlen hk1 (by omega : k + 1 ≠ q.length - 1) hqkc
        rcases ih (si.set (k + 1) (newVal q c j si (k + 1))) best (by simp [hlen])
            (by omega) with ⟨si', hrun, hlen', hhigh, hlow⟩
        refine ⟨si', ?_, hlen', ?_, ?_⟩
        · simp only [innerLoop, hpk, ok_bind]
          exact hrun
        · intro t ht
          rw [hhigh t (by omega), List.getElem?_set_ne (by omega)]
        · intro t ht
          rcases Nat.lt_or_ge t (k + 1) with htlt | htge
          · rw [hlow t (by omega), newVal_set_high _ htlt]
          · have hteq : t = k + 1 := by omega
            subst hteq
            rw [hhigh (k + 1) (by omega)]
            exact getElem?_set_self (by rw [hlen]; exact hk1) _
      · have hpk : processKey q c j (k + 1) si best = Except.ok (si, best) :=
          processKey_not_hit hqk hqc
        rcases ih si best hlen (by omega) with ⟨si', hrun, hlen', hhigh, hlow⟩
        refine ⟨si', ?_, hlen', ?_, ?_⟩
        · simp only [innerLoop, hpk, ok_bind]
          exact hrun
        · intro t ht
          exact hhigh t (by omega)
        · intro t ht
          rcases Nat.lt_or_ge t (k + 1) with htlt | htge
          · exact hlow t (by omega)
          · have hteq : t = k + 1 := by omega
            subst hteq
            rw [hhigh (k + 1) (by omega)]
            have hnv : newVal q c j si (k + 1) = (si[k + 1]?).join := by
              have hne : ¬ q[k + 1]? = some c := by
                rw [hqk]
                intro h
                exact hqc (Option.some.inj h)
              simp [newVal, hne]
            rcases getElem?_of_lt si (k + 1) (by omega) with ⟨v, hv⟩
            rw [hnv, hv]
            rfl

end minspan

namespace minspan

variable {α : Type} [DecidableEq α]

/-- Closed form of one whole inner pass (fuel `query.len() - 1`, the value the
outer loop uses): every slot `t` of `start_indices` becomes `newVal t`, and
`best_span` is updated exactly when the scanned element completes the query,
through the just-written top slot. -/
lemma innerLoop_top {q : List α} {c : α} {j : Nat} {si : List (Option Nat)}
    {best : Option (Nat × Nat)}
    (hlen : si.length = q.length) (hm : 1 ≤ q.length)
    (hsafe : ∀ s, newVal q c j si (q.length - 1) = some s → s ≤ j)
    (hwf : ∀ cs ce, best = some (cs, ce) → cs ≤ ce) :
    ∃ si' best', innerLoop q c j (q.length - 1) si best = Except.ok (si', best') ∧
      si'.length = q.length ∧
      (∀ t, t < q.length → si'[t]? = some (newVal q c j si t)) ∧
      (¬ q[q.length - 1]? = some c → best' = best) ∧
      (q[q.length - 1]? = some c →
        best' = match newVal q c j si (q.length - 1) with
                | some s => updVal best s j
                | none => best) := by
  have htoplt : q.length - 1 < q.length := by omega
  rcases getElem?_of_lt q (q.length - 1) htoplt with ⟨qt, hqt⟩
  rcases Nat.lt_or_ge 1 q.length with hm2 | hm1
  · -- query has at least two elements: unfold one step, then use the low lemma
    obtain ⟨k0, hk0⟩ : ∃ k0, q.length - 1 = k0 + 1 := ⟨q.length - 2, by omega⟩
    have hstep : innerLoop q c j (q.length - 1) si best =
        (processKey q c j (q.length - 1) si best >>= fun st =>
          innerLoop q c j k0 st.1 st.2) := by
      rw [hk0]
      rfl
    by_cases hqc : qt = c
    · have hqtc : q[q.length - 1]? = some c := hqc ▸ hqt
      have hpk : processKey q c j (q.length - 1) si best =
          Except.ok (si.set (q.length - 1) (newVal q c j si (q.length - 1)),
            match newVal q c j si (q.length - 1) with
            | some s => updVal best s j
            | none => best) :=
        processKey_hit_top hlen hm hqtc hsafe hwf
      rcases innerLoop_low (q := q) (c := c) (j := j) k0
          (si.set (q.length - 1) (newVal q c j si (q.length - 1)))
          (match newVal q c j si (q.length - 1) with
            | some s => updVal best s j
            | none => best)
          (by simp [hlen]) (by omega) with ⟨si', hrun, hlen', hhigh, hlow⟩
      refine ⟨si', _, ?_, hlen', ?_, fun h => absurd hqtc h, fun _ => rfl⟩
      · rw [hstep, hpk, ok_bind]
        exact hrun
      · intro t ht
        rcases Nat.lt_or_ge t (q.length - 1) with htlt | htge
        · rw [hlow t (by omega), newVal_set_high _ htlt]
        · have hteq : t = q.length - 1 := by omega
          subst hteq
          rw [hhigh (q.length - 1) (by omega)]
          exact getElem?_set_self (by rw [hlen]; exact htoplt) _
    · have hpk : processKey q c j (q.length - 1) si best = Except.ok (si, best) :=
        processKey_not_hit hqt hqc
      have hne : ¬ q[q.length - 1]? = some c := by
        rw [hqt]
        intro h
        exact hqc (Option.some.inj h)
      rcases innerLoop_low (q := q) (c := c) (j := j) k0 si best hlen (by omega) with
        ⟨si', hrun, hlen', hhigh, hlow⟩
      refine ⟨si', best, ?_, hlen', ?_, fun _ => rfl, fun h => absurd h hne⟩
      · rw [hstep, hpk, ok_bind]
        exact hrun
      · intro t ht
        rcases Nat.lt_or_ge t (q.length - 1) with htlt | htge
        · exact hlow t (by omega)
        · have hteq : t = q.length - 1 := by omega
          subst hteq
          rw [hhigh (q.length - 1) (by omega)]
          have hnv : newVal q c j si (q.length - 1) = (si[q.length - 1]?).join := by
            simp [newVal, hne]
          rcases getElem?_of_lt si (q.length - 1) (by omega) with ⟨v, hv⟩
          rw [hnv, hv]
          rfl
  · -- singleton query: the inner loop is exactly one processKey at index 0
    have hk00 : q.length - 1 = 0 := by omega
    have hstep : innerLoop q c j (q.length - 1) si best =
        processKey q c j (q.length - 1) si best := by
      rw [hk00]
      rfl
    by_cases hqc : qt = c
    · have hqtc : q[q.length - 1]? = some c := hqc ▸ hqt
      have hpk : processKey q c j (q.length - 1) si best =
          Except.ok (si.set (q.length - 1) (newVal q c j si (q.length - 1)),
            match newVal q c j si (q.length - 1) with
            | some s => updVal best s j
            | none => best) :=
        processKey_hit_top hlen hm hqtc hsafe hwf
      refine ⟨si.set (q.length - 1) (newVal q c j si (q.length - 1)), _, ?_,
        by simp [hlen], ?_, fun h => absurd hqtc h, fun _ => rfl⟩
      · rw [hstep]
        exact hpk
      · intro t ht
        have hteq : t = q.length - 1 := by omega
        subst hteq
        exact getElem?_set_self (by rw [hlen]; exact htoplt) _
    · have hpk : processKey q c j (q.length - 1) si best = Except.ok (si, best) :=
        processKey_not_hit hqt hqc
      have hne : ¬ q[q.length - 1]? = some c := by
        rw [hqt]
        intro h
        exact hqc (Option.some.inj h)
      refine ⟨si, best, ?_, hlen, ?_, fun _ => rfl, fun h => absurd h hne⟩
      · rw [hstep]
        exact hpk
      · intro t ht
        have hteq : t = q.length - 1 := by omega
        subst hteq
        have hnv : newVal q c j si (q.length - 1) = (si[q.length - 1]?).join := by
          simp [newVal, hne]
        rcases getElem?_of_lt si (q.length - 1) (by omega) with ⟨v, hv⟩
        rw [hnv, hv]
        rfl

end minspan

namespace minspan

variable {α : Type} [DecidableEq α]

lemma newVal_some_cases {q : List α} {c : α} {j : Nat} {si : List (Option Nat)} {t s : Nat}
    (h : newVal q c j si t = some s) :
    (q[t]? = some c ∧ t = 0 ∧ s = j) ∨
    (q[t]? = some c ∧ t ≠ 0 ∧ si[t - 1]? = some (some s)) ∨
    (¬ q[t]? = some c ∧ si[t]? = some (some s)) := by
  unfold newVal at h
  by_cases hq : q[t]? = some c
  · rw [if_pos hq] at h
    by_cases ht : t = 0
    · rw [if_pos ht] at h
      exact Or.inl ⟨hq, ht, (Option.some.inj h).symm⟩
    · rw [if_neg ht] at h
      exact Or.inr (Or.inl ⟨hq, ht, Option.join_eq_some.mp h⟩)
  · rw [if_neg hq] at h
    exact Or.inr (Or.inr ⟨hq, Option.join_eq_some.mp h⟩)

lemma chain_end_hit {q r : List α} {c : α} {k s j : Nat}
    (h : Reaches q r k s j) (hc : r[j]? = some c) : q[k]? = some c := by
  rcases Reaches.end_matches h with ⟨a, hq, hr⟩
  rw [hr] at hc
  rw [Option.some.inj hc] at hq
  exact hq

/-- Any value the pass writes is at most the current scan index. -/
lemma newVal_le {q r : List α} {c : α} {j : Nat} {si : List (Option Nat)}
    (hsnd : ∀ k s, si[k]? = some (some s) → ∃ e, e < j ∧ Reaches q r k s e) :
    ∀ t s, newVal q c j si t = some s → s ≤ j := by
  intro t s h
  rcases newVal_some_cases h with ⟨_, _, hsj⟩ | ⟨_, _, hget⟩ | ⟨_, hget⟩
  · omega
  · rcases hsnd _ _ hget with ⟨e, hej, hch⟩
    have := hch.start_le_end
    omega
  · rcases hsnd _ _ hget with ⟨e, hej, hch⟩
    have := hch.start_le_end
    omega

/-- Soundness of the written values: each is the start of a chain ending at
or before the current scan index. -/
lemma newVal_sound {q r : List α} {c : α} {j : Nat} {si : List (Option Nat)}
    (hsnd : ∀ k s, si[k]? = some (some s) → ∃ e, e < j ∧ Reaches q r k s e)
    (hc : r[j]? = some c) :
    ∀ t s, newVal q c j si t = some s → ∃ e, e < j + 1 ∧ Reaches q r t s e := by
  intro t s h
  rcases newVal_some_cases h with ⟨hq, ht, hsj⟩ | ⟨hq, ht, hget⟩ | ⟨_, hget⟩
  · refine ⟨j, by omega, ?_⟩
    rw [ht, hsj]
    exact Reaches.base (ht ▸ hq) hc
  · rcases hsnd _ _ hget with ⟨e1, he1, hch⟩
    obtain ⟨t0, ht0⟩ : ∃ t0, t = t0 + 1 := ⟨t - 1, by omega⟩
    subst ht0
    have hq' : q[t0 + 1]? = some c := hq
    have hch' : Reaches q r t0 s e1 := by
      have he : t0 + 1 - 1 = t0 := by omega
      rw [he] at hch
      exact hch
    exact ⟨j, by omega, Reaches.step hch' he1 hq' hc⟩
  · rcases hsnd _ _ hget with ⟨e, hej, hch⟩
    exact ⟨e, by omega, hch⟩

/-- When the scanned element completes the query through a just-written top
slot, the recorded start really reaches the current index `j`. -/
lemma newVal_top_chain {q r : List α} {c : α} {j : Nat} {si : List (Option Nat)}
    (hsnd : ∀ k s, si[k]? = some (some s) → ∃ e, e < j ∧ Reaches q r k s e)
    (hc : r[j]? = some c) (hhit : q[q.length - 1]? = some c) {s : Nat}
    (h : newVal q c j si (q.length - 1) = some s) :
    Reaches q r (q.length - 1) s j := by
  rcases newVal_some_cases h with ⟨hq, ht, hsj⟩ | ⟨hq, ht, hget⟩ | ⟨hq, hget⟩
  · rw [ht, hsj]
    exact Reaches.base (ht ▸ hq) hc
  · rcases hsnd _ _ hget with ⟨e1, he1, hch⟩
    obtain ⟨t0, ht0⟩ : ∃ t0, q.length - 1 = t0 + 1 := ⟨q.length - 1 - 1, by omega⟩
    rw [ht0]
    have hq' : q[t0 + 1]? = some c := ht0 ▸ hq
    have hch' : Reaches q r t0 s e1 := by
      have he : q.length - 1 - 1 = t0 := by omega
      rw [he] at hch
      exact hch
    exact Reaches.step hch' he1 hq' hc
  · exact absurd hhit hq

end minspan

namespace minspan

variable {α : Type} [DecidableEq α]

lemma some_pair_inj {a b c d : Nat} (h : (some (a, b) : Option (Nat × Nat)) = some (c, d)) :
    a = c ∧ b = d := by
  injection h with h1
  exact ⟨congrArg Prod.fst h1, congrArg Prod.snd h1⟩

/-- Maximality of the written values: any chain ending at or before the scan
index `j` starts no later than the value the pass records at its level. -/
lemma newVal_max {q r : List α} {c : α} {j : Nat} {si : List (Option Nat)}
    (hmax : ∀ k s e, e < j → Reaches q r k s e → ∃ s', si[k]? = some (some s') ∧ s ≤ s')
    (hc : r[j]? = some c) :
    ∀ k s e, e < j + 1 → Reaches q r k s e →
      ∃ s', newVal q c j si k = some s' ∧ s ≤ s' := by
  intro k s e hej hch
  rcases Nat.lt_or_ge e j with hlt | hge
  · -- a chain the previous rounds already saw
    rcases hmax k s e hlt hch with ⟨s0, hs0, hle0⟩
    by_cases hhit : q[k]? = some c
    · by_cases hk0 : k = 0
      · subst hk0
        refine ⟨j, by simp [newVal, hhit], ?_⟩
        have := hch.zero_eq
        omega
      · obtain ⟨e1, he1, hch1⟩ := hch.chop (show k - 1 ≤ k by omega)
        rcases hmax (k - 1) s e1 (by omega) hch1 with ⟨s1, hs1, hle1⟩
        refine ⟨s1, ?_, hle1⟩
        simp [newVal, hhit, hk0, hs1]
    · refine ⟨s0, ?_, hle0⟩
      simp [newVal, hhit, hs0]
  · -- a chain ending exactly at the scan index
    have hej' : e = j := by omega
    rw [hej'] at hch
    have hhit : q[k]? = some c := chain_end_hit hch hc
    by_cases hk0 : k = 0
    · subst hk0
      refine ⟨j, by simp [newVal, hhit], ?_⟩
      have := hch.zero_eq
      omega
    · obtain ⟨k0, hk0'⟩ : ∃ k0, k = k0 + 1 := ⟨k - 1, by omega⟩
      subst hk0'
      obtain ⟨e1, he1, hch1⟩ := hch.succ_chop
      rcases hmax k0 s e1 (by omega) hch1 with ⟨s1, hs1, hle1⟩
      refine ⟨s1, ?_, hle1⟩
      simp [newVal, hhit, hs1]

end minspan

namespace minspan

variable {α : Type} [DecidableEq α]

/-- One scan position preserves the invariant (and cannot fail). -/
lemma inv_step {q r : List α} {j : Nat} {si : List (Option Nat)}
    {best : Option (Nat × Nat)} {c : α}
    (hm : 1 ≤ q.length) (hinv : Inv q r j si best) (hc : r[j]? = some c) :
    ∃ si' best', innerLoop q c j (q.length - 1) si best = Except.ok (si', best') ∧
      Inv q r (j + 1) si' best' := by
  obtain ⟨hlen, hsnd, hmax, hbs, hbm, hff⟩ := hinv
  have hwf : ∀ cs ce, best = some (cs, ce) → cs ≤ ce := fun cs ce h =>
    ((hbs cs ce h).2).start_le_end
  have hsafe : ∀ s, newVal q c j si (q.length - 1) = some s → s ≤ j :=
    fun s h => newVal_le hsnd _ s h
  rcases innerLoop_top hlen hm hsafe hwf with ⟨si', best', hrun, hlen', hval, hbno, hbyes⟩
  refine ⟨si', best', hrun, hlen', ?_, ?_, ?_, ?_, ?_⟩
  · -- soundness of the updated start_indices
    intro k s hget
    by_cases hk : k < q.length
    · have hnv : newVal q c j si k = some s := by
        rw [hval k hk] at hget
        exact Option.some.inj hget
      exact newVal_sound hsnd hc k s hnv
    · rw [List.getElem?_eq_none (by omega)] at hget
      cases hget
  · -- maximality of the updated start_indices
    intro k s e hej hch
    have hk : k < q.length := hch.level_lt_length
    rcases newVal_max hmax hc k s e hej hch with ⟨s', hs', hle⟩
    exact ⟨s', by rw [hval k hk, hs'], hle⟩
  · -- soundness of the updated best_span
    intro s e hbest'
    by_cases hhit : q[q.length - 1]? = some c
    · have hb := hbyes hhit
      cases hnv : newVal q c j si (q.length - 1) with
      | none =>
          rw [hnv] at hb
          replace hb : best' = best := by rw [hb]
          rcases hbs s e (by rw [← hb]; exact hbest') with ⟨hej, hch⟩
          exact ⟨by omega, hch⟩
      | some s2 =>
          rw [hnv] at hb
          replace hb : best' = updVal best s2 j := by rw [hb]
          have hch2 : Reaches q r (q.length - 1) s2 j := newVal_top_chain hsnd hc hhit hnv
          rcases updVal_spec best s2 j with ⟨bs, be, hupd, hlen2, hold, hcase⟩
          rcases hcase with hnew | hkeep
          · have hsome : (some (s2, j) : Option (Nat × Nat)) = some (s, e) := by
              rw [← hnew, ← hb]
              exact hbest'
            obtain ⟨hs, he⟩ := some_pair_inj hsome
            refine ⟨by omega, ?_⟩
            rw [← hs, ← he]
            exact hch2
          · rcases hbs s e (by rw [← hkeep, ← hb]; exact hbest') with ⟨hej, hch⟩
            exact ⟨by omega, hch⟩
    · rw [hbno hhit] at hbest'
      rcases hbs s e hbest' with ⟨hej, hch⟩
      exact ⟨by omega, hch⟩
  · -- minimality of the updated best_span
    intro s e hej hch
    rcases Nat.lt_or_ge e j with hlt | hge
    · rcases hbm s e hlt hch with ⟨b1, b2, hbsome, hble⟩
      by_cases hhit : q[q.length - 1]? = some c
      · have hb := hbyes hhit
        cases hnv : newVal q c j si (q.length - 1) with
        | none =>
            rw [hnv] at hb
            replace hb : best' = best := by rw [hb]
            exact ⟨b1, b2, by rw [hb]; exact hbsome, hble⟩
        | some s2 =>
            rw [hnv] at hb
            replace hb : best' = updVal best s2 j := by rw [hb]
            rcases updVal_spec best s2 j with ⟨bs, be, hupd, _, hold, _⟩
            have := hold b1 b2 hbsome
            exact ⟨bs, be, by rw [hb]; exact hupd, by omega⟩
      · exact ⟨b1, b2, by rw [hbno hhit]; exact hbsome, hble⟩
    · have hej' : e = j := by omega
      rw [hej'] at hch
      have hhit : q[q.length - 1]? = some c := chain_end_hit hch hc
      have hb := hbyes hhit
      rcases newVal_max hmax hc (q.length - 1) s j (by omega) hch with ⟨s2, hnv, hle⟩
      rw [hnv] at hb
      replace hb : best' = updVal best s2 j := by rw [hb]
      rcases updVal_spec best s2 j with ⟨bs, be, hupd, hlen2, _, _⟩
      refine ⟨bs, be, by rw [hb]; exact hupd, ?_⟩
      rw [hej']
      omega
  · -- first-found property of the updated best_span
    intro bs be s e hbest' hch hlt
    by_cases hhit : q[q.length - 1]? = some c
    · have hb := hbyes hhit
      cases hnv : newVal q c j si (q.length - 1) with
      | none =>
          rw [hnv] at hb
          replace hb : best' = best := by rw [hb]
          rw [hb] at hbest'
          exact hff bs be s e hbest' hch hlt
      | some s2 =>
          rw [hnv] at hb
          replace hb : best' = updVal best s2 j := by rw [hb]
          match hbm2 : best with
          | none =>
              have hb' : best' = some (s2, j) := by
                rw [hb]
                rfl
              rw [hb'] at hbest'
              obtain ⟨hs2, hj⟩ := some_pair_inj hbest'
              rcases hbm s e (by omega) hch with ⟨b1, b2, hsome, _⟩
              cases hsome
          | some (b1, b2) =>
              by_cases hlt2 : j - s2 < b2 - b1
              · have hb' : best' = some (s2, j) := by
                  rw [hb]
                  simp [updVal, hlt2]
                rw [hb'] at hbest'
                obtain ⟨hs2, hj⟩ := some_pair_inj hbest'
                rcases Nat.lt_or_ge e b2 with hcase | hcase
                · have h2 := hff b1 b2 s e rfl hch hcase
                  omega
                · have hejlt : e < j := by omega
                  rcases hbm s e hejlt hch with ⟨b1', b2', hsome, hble⟩
                  obtain ⟨h1, h2⟩ := some_pair_inj hsome.symm
                  omega
              · have hb' : best' = some (b1, b2) := by
                  rw [hb]
                  simp [updVal, hlt2]
                rw [hb'] at hbest'
                obtain ⟨h1, h2⟩ := some_pair_inj hbest'
                have h3 := hff b1 b2 s e rfl hch (by omega)
                omega
    · rw [hbno hhit] at hbest'
      exact hff bs be s e hbest' hch hlt

end minspan

namespace minspan

variable {α : Type} [DecidableEq α]

/-- The invariant holds before the scan starts. -/
lemma inv_init {q r : List α} :
    Inv q r 0 (List.replicate q.length none) none := by
  refine ⟨by simp, ?_, ?_, ?_, ?_, ?_⟩
  · intro k s hget
    rw [List.getElem?_replicate] at hget
    by_cases hk : k < q.length
    · rw [if_pos hk] at hget
      cases Option.some.inj hget
    · rw [if_neg hk] at hget
      cases hget
  · intro k s e he _
    exact absurd he (Nat.not_lt_zero e)
  · intro s e h
    cases h
  · intro s e he _
    exact absurd he (Nat.not_lt_zero e)
  · intro bs be s e h
    cases h

/-- Running the outer loop from an invariant state yields an invariant state
covering the whole reference, and never fails. -/
lemma outer_inv {q r : List α} (hm : 1 ≤ q.length) :
    ∀ (rest : List α) (j : Nat) (si : List (Option Nat)) (best : Option (Nat × Nat)),
      Inv q r j si best → r.drop j = rest →
      ∃ si' best', outerLoop q rest j si best = Except.ok (si', best') ∧
        ∃ J, r.length ≤ J ∧ Inv q r J si' best' := by
  intro rest
  induction rest with
  | nil =>
      intro j si best hinv hdrop
      exact ⟨si, best, rfl, j, List.drop_eq_nil_iff.mp hdrop, hinv⟩
  | cons c rest ih =>
      intro j si best hinv hdrop
      have hj : r[j]? = some c := by
        have h1 : (r.drop j)[0]? = some c := by
          rw [hdrop]
          simp
        rw [List.getElem?_drop] at h1
        simpa using h1
      have hdrop' : r.drop (j + 1) = rest := by
        have h2 : (r.drop j).drop 1 = r.drop (j + 1) := List.drop_drop 1 j r
        rw [hdrop] at h2
        exact h2.symm
      rcases inv_step hm hinv hj with ⟨si1, best1, hrun, hinv1⟩
      rcases ih (j + 1) si1 best1 hinv1 hdrop' with ⟨si', best', hrun', hJ⟩
      refine ⟨si', best', ?_, hJ⟩
      show (innerLoop q c j (q.length - 1) si best >>= fun st =>
        outerLoop q rest (j + 1) st.1 st.2) = Except.ok (si', best')
      rw [hrun, ok_bind]
      exact hrun'

/-- The scan of a non-empty query returns normally, and its result state
satisfies the invariant at a stage covering the whole reference. -/
lemma span_main {q : List α} (r : List α) (hq : q ≠ []) :
    ∃ si best, outerLoop q r 0 (List.replicate q.length none) none = Except.ok (si, best) ∧
      span q r = Except.ok best ∧
      ∃ J, r.length ≤ J ∧ Inv q r J si best := by
  have hm : 1 ≤ q.length := by
    cases q with
    | nil => exact absurd rfl hq
    | cons a l => simp
  rcases outer_inv hm r 0 (List.replicate q.length none) none inv_init rfl with
    ⟨si, best, hrun, hJ⟩
  refine ⟨si, best, hrun, ?_, hJ⟩
  have hne : q.isEmpty = false := by
    cases q with
    | nil => exact absurd rfl hq
    | cons a l => rfl
  simp only [span, hne, Bool.false_eq_true, if_false]
  rw [hrun, ok_bind]

end minspan

section SublistBridge

variable {α : Type} {q r : List α}

/-- A chain for the query prefix `q[0..=k]` exhibits that prefix as a sublist
of the reference prefix up to the chain's end. -/
lemma reaches_take_sublist {k s e : Nat} (h : Reaches q r k s e) :
    List.Sublist (q.take (k + 1)) (r.take (e + 1)) := by
  induction h with
  | @base a s hq hr =>
      rw [show (0 : Nat) + 1 = 1 from rfl, List.take_succ, List.take_succ, hq, hr]
      exact List.Sublist.append (List.nil_sublist _) (List.Sublist.refl _)
  | @step k s e e' a h1 hlt hq hr ih =>
      rw [List.take_succ (n := k + 1), List.take_succ (n := e'), hq, hr]
      refine List.Sublist.append ?_ (List.Sublist.refl _)
      refine ih.trans ?_
      have hmin : (e + 1) ⊓ e' = e + 1 := min_eq_left (by omega)
      have h3 : List.Sublist ((r.take e').take (e + 1)) (r.take e') :=
        List.take_sublist _ _
      rw [List.take_take, hmin] at h3
      exact h3

/-- A complete chain exhibits the query as a sublist of the reference. -/
lemma reaches_to_sublist (hq : q ≠ []) {s e : Nat}
    (h : Reaches q r (q.length - 1) s e) : List.Sublist q r := by
  have h1 := reaches_take_sublist h
  have hlen : q.length - 1 + 1 = q.length := by
    have := List.length_pos.mpr hq
    omega
  rw [hlen, List.take_length] at h1
  exact h1.trans (List.take_sublist _ _)

lemma Reaches.shift_cons {b : α} {k s e : Nat} (h : Reaches q r k s e) :
    Reaches q (b :: r) k (s + 1) (e + 1) := by
  induction h with
  | base hq hr => exact Reaches.base hq (by simpa using hr)
  | step h1 hlt hq hr ih => exact Reaches.step ih (by omega) hq (by simpa using hr)

lemma Reaches.prepend {a : α} {k s e : Nat} (h : Reaches q r k s e) :
    Reaches (a :: q) (a :: r) (k + 1) 0 (e + 1) := by
  induction h with
  | @base b s hq hr =>
      refine Reaches.step (a := b) (Reaches.base (a := a) (by simp) (by simp)) (by omega) ?_ ?_
      · simpa using hq
      · simpa using hr
  | @step k s e e' b h1 hlt hq hr ih =>
      exact Reaches.step ih (by omega) (by simpa using hq) (by simpa using hr)

/-- A sublist occurrence of a non-empty query yields a complete chain. -/
lemma sublist_to_reaches (h : List.Sublist q r) :
    q ≠ [] → ∃ s e, Reaches q r (q.length - 1) s e := by
  induction h with
  | slnil => intro hq; exact absurd rfl hq
  | @cons l1 l2 b h1 ih =>
      intro hq
      rcases ih hq with ⟨s, e, hch⟩
      exact ⟨s + 1, e + 1, hch.shift_cons⟩
  | @cons₂ l1 l2 a h1 ih =>
      intro hq
      by_cases hl : l1 = []
      · subst hl
        exact ⟨0, 0, Reaches.base (a := a) (by simp) (by simp)⟩
      · rcases ih hl with ⟨s, e, hch⟩
        refine ⟨0, e + 1, ?_⟩
        have hpre := hch.prepend (a := a)
        have hlen : (a :: l1).length - 1 = l1.length - 1 + 1 := by
          have := List.length_pos.mpr hl
          simp
          omega
        rw [hlen]
        exact hpre

end SublistBridge

namespace minspan

variable {α : Type} [DecidableEq α]

lemma reaches_query_ne_nil {q r : List α} {k s e : Nat} (h : Reaches q r k s e) :
    q ≠ [] := by
  intro hq
  subst hq
  have := h.level_lt_length
  simp at this

end minspan

/-- C1.  Minimality: whenever `span` returns a window `(s, e)`, no window of
the reference satisfying the ordered-subsequence contract (a strictly
increasing index chain matching the query elementwise, starting and ending at
the window bounds, i.e. `Reaches q r (q.length - 1) s' e'`) is strictly
shorter than `e - s`. -/
theorem span_minimal {α : Type} [DecidableEq α] (q r : List α) (s e s' e' : Nat)
    (h : minspan.span q r = Except.ok (some (s, e)))
    (hch : Reaches q r (q.length - 1) s' e') :
    e - s ≤ e' - s' := by
  have hq : q ≠ [] := minspan.reaches_query_ne_nil hch
  rcases minspan.span_main r hq with ⟨si, best, hrun, hspan, J, hJle, hinv⟩
  obtain ⟨hlen, hsnd, hmax, hbs, hbm, hff⟩ := hinv
  have hbest : best = some (s, e) := by
    rw [hspan] at h
    exact Except.ok.inj h
  have hche : e' < J := lt_of_lt_of_le hch.end_lt_length hJle
  rcases hbm s' e' hche hch with ⟨bs, be, hsome, hble⟩
  rw [hbest] at hsome
  obtain ⟨h1, h2⟩ := minspan.some_pair_inj hsome.symm
  omega

/-- Witness for C1 at query `[0, 1]`, reference `[0, 2, 1]`. -/
theorem span_minimal_witness : (2 : Nat) - 0 ≤ 2 - 0 :=
  span_minimal ([0, 1] : List Nat) [0, 2, 1] 0 2 0 2
    (by rfl)
    (Reaches.step (a := 1) (Reaches.base (a := 0) (by rfl) (by rfl)) (by omega)
      (by rfl) (by rfl))

/-- C2.  Soundness: for a non-empty query, a returned window `(s, e)` has
`s ≤ e`, its bounds match the first and last query elements, and a strictly
increasing chain matches the whole query inside it, starting at `s` and
ending at `e`. -/
theorem span_sound {α : Type} [DecidableEq α] (q r : List α) (s e : Nat)
    (hq : q ≠ []) (h : minspan.span q r = Except.ok (some (s, e))) :
    s ≤ e ∧ r[s]? = q[0]? ∧ r[e]? = q[q.length - 1]? ∧
      Reaches q r (q.length - 1) s e := by
  rcases minspan.span_main r hq with ⟨si, best, hrun, hspan, J, hJle, hinv⟩
  obtain ⟨hlen, hsnd, hmax, hbs, hbm, hff⟩ := hinv
  have hbest : best = some (s, e) := by
    rw [hspan] at h
    exact Except.ok.inj h
  rcases hbs s e hbest with ⟨hej, hch⟩
  rcases hch.start_matches with ⟨a1, hqa1, hra1⟩
  rcases hch.end_matches with ⟨a2, hqa2, hra2⟩
  exact ⟨hch.start_le_end, by rw [hqa1, hra1], by rw [hqa2, hra2], hch⟩

/-- Witness for C2 at query `[0, 1]`, reference `[0, 2, 1]`. -/
theorem span_sound_witness :
    (0 : Nat) ≤ 2 ∧ ([0, 2, 1] : List Nat)[0]? = ([0, 1] : List Nat)[0]? ∧
      ([0, 2, 1] : List Nat)[2]? = ([0, 1] : List Nat)[1]? ∧
      Reaches ([0, 1] : List Nat) [0, 2, 1] 1 0 2 :=
  span_sound ([0, 1] : List Nat) [0, 2, 1] 0 2 (by decide) (by rfl)

/-- C4.  Empty-query convention: `span` of the empty query is `Some((0, 0))`
for every reference, including the empty one. -/
theorem span_empty_query {α : Type} [DecidableEq α] (r : List α) :
    minspan.span ([] : List α) r = Except.ok (some (0, 0)) := rfl

/-- C5.  Empty-reference case: `span` of a non-empty query against the empty
reference returns the absent result. -/
theorem span_empty_reference {α : Type} [DecidableEq α] (q : List α) (hq : q ≠ []) :
    minspan.span q [] = Except.ok none := by
  have hne : q.isEmpty = false := by
    cases q with
    | nil => exact absurd rfl hq
    | cons a l => rfl
  simp only [minspan.span, hne, Bool.false_eq_true, if_false]
  rfl

/-- Witness for C5 at query `[0]`. -/
theorem span_empty_reference_witness :
    minspan.span ([0] : List Nat) [] = Except.ok none :=
  span_empty_reference [0] (by decide)

/-- C8.  Totality / no panic: on every input, `span` returns normally —
every checked index access is in bounds and neither `usize` subtraction
underflows, so the result is always `Except.ok`. -/
theorem span_no_panic {α : Type} [DecidableEq α] (q r : List α) :
    ∃ v, minspan.span q r = Except.ok v := by
  by_cases hq : q = []
  · subst hq
    exact ⟨some (0, 0), rfl⟩
  · rcases minspan.span_main r hq with ⟨si, best, hrun, hspan, _⟩
    exact ⟨best, hspan⟩

/-- C3.  Completeness / result-iff-match: for a non-empty query, `span`
returns a window exactly when the query occurs in the reference as an
ordered (not necessarily contiguous) subsequence, and returns the absent
result — as a normal value, not an error — when it does not. -/
theorem span_some_iff_sublist {α : Type} [DecidableEq α] (q r : List α) (hq : q ≠ []) :
    ((∃ p, minspan.span q r = Except.ok (some p)) ↔ List.Sublist q r) ∧
    (¬ List.Sublist q r → minspan.span q r = Except.ok none) := by
  rcases minspan.span_main r hq with ⟨si, best, hrun, hspan, J, hJle, hinv⟩
  obtain ⟨hlen, hsnd, hmax, hbs, hbm, hff⟩ := hinv
  constructor
  · constructor
    · rintro ⟨⟨s, e⟩, hp⟩
      rw [hspan] at hp
      rcases hbs s e (Except.ok.inj hp) with ⟨_, hch⟩
      exact reaches_to_sublist hq hch
    · intro hsub
      rcases sublist_to_reaches hsub hq with ⟨s, e, hch⟩
      rcases hbm s e (lt_of_lt_of_le hch.end_lt_length hJle) hch with ⟨bs, be, hsome, _⟩
      exact ⟨(bs, be), by rw [hspan, hsome]⟩
  · intro hnsub
    match hbest2 : best with
    | none => exact hspan
    | some (s, e) =>
        rcases hbs s e rfl with ⟨_, hch⟩
        exact absurd (reaches_to_sublist hq hch) hnsub

/-- Witness for C3 at query `[0, 1]`, reference `[0, 2, 1]`. -/
theorem span_some_iff_sublist_witness :
    ((∃ p, minspan.span ([0, 1] : List Nat) [0, 2, 1] = Except.ok (some p)) ↔
      List.Sublist ([0, 1] : List Nat) [0, 2, 1]) ∧
    (¬ List.Sublist ([0, 1] : List Nat) [0, 2, 1] →
      minspan.span ([0, 1] : List Nat) [0, 2, 1] = Except.ok none) :=
  span_some_iff_sublist [0, 1] [0, 2, 1] (by decide)

/-- C6.  Tie-breaking: a complete match is recorded over the incumbent
`best_span` only when strictly shorter — `updateBest` keeps the incumbent on
ties — and consequently the returned span is the first minimal-length match
found by the left-to-right scan: every complete-match window ending strictly
earlier than the returned end is strictly longer. -/
theorem span_tie_break {α : Type} [DecidableEq α] (q r : List α)
    (s e s' e' currStart currEnd s0 e0 : Nat)
    (h : minspan.span q r = Except.ok (some (s, e)))
    (hch : Reaches q r (q.length - 1) s' e') (hlt : e' < e)
    (h1 : currStart ≤ currEnd) (h2 : s0 ≤ e0) (h3 : e0 - s0 = currEnd - currStart) :
    e - s < e' - s' ∧
      minspan.updateBest (some (currStart, currEnd)) (s0, e0) =
        Except.ok (some (currStart, currEnd)) := by
  constructor
  · have hq : q ≠ [] := minspan.reaches_query_ne_nil hch
    rcases minspan.span_main r hq with ⟨si, best, hrun, hspan, J, hJle, hinv⟩
    obtain ⟨hlen, hsnd, hmax, hbs, hbm, hff⟩ := hinv
    have hbest : best = some (s, e) := by
      rw [hspan] at h
      exact Except.ok.inj h
    exact hff s e s' e' hbest hch hlt
  · have heq : minspan.updateBest (some (currStart, currEnd)) (s0, e0) =
        Except.ok (minspan.updVal (some (currStart, currEnd)) s0 e0) :=
      minspan.updateBest_eq
        (fun cs ce hsome => by
          obtain ⟨hc1, hc2⟩ := minspan.some_pair_inj hsome
          omega) h2
    rw [heq]
    simp [minspan.updVal, h3]

/-- Witness for C6 at query `[0, 1]`, reference `[0, 2, 1, 0, 1]`: the
returned span `(3, 4)` beats the earlier window `(0, 2)`, and a tie keeps
the incumbent `(0, 1)` over `(3, 4)`. -/
theorem span_tie_break_witness :
    (4 : Nat) - 3 < 2 - 0 ∧
      minspan.updateBest (some (0, 1)) (3, 4) = Except.ok (some (0, 1)) :=
  span_tie_break ([0, 1] : List Nat) [0, 2, 1, 0, 1] 3 4 0 2 0 1 3 4
    (by rfl)
    (Reaches.step (a := 1) (Reaches.base (a := 0) (by rfl) (by rfl)) (by omega)
      (by rfl) (by rfl))
    (by omega) (by omega) (by omega) (by omega)

/-- C7.  Monotonic non-regression: appending to the reference never makes a
found span longer — if `span` found `(s, e)` on `r`, it finds a window of
length at most `e - s` on `r ++ t`. -/
theorem span_append_mono {α : Type} [DecidableEq α] (q r t : List α) (s e : Nat)
    (h : minspan.span q r = Except.ok (some (s, e))) :
    ∃ s' e', minspan.span q (r ++ t) = Except.ok (some (s', e')) ∧
      e' - s' ≤ e - s := by
  by_cases hq : q = []
  · subst hq
    have h0 : (some ((0 : Nat), (0 : Nat)) : Option (Nat × Nat)) = some (s, e) :=
      Except.ok.inj (by rw [← h]; rfl)
    obtain ⟨hs, he⟩ := minspan.some_pair_inj h0
    exact ⟨0, 0, rfl, by omega⟩
  · rcases minspan.span_main r hq with ⟨si, best, hrun, hspan, J, hJle, hinv⟩
    obtain ⟨hlen, hsnd, hmax, hbs, hbm, hff⟩ := hinv
    have hbest : best = some (s, e) := by
      rw [hspan] at h
      exact Except.ok.inj h
    rcases hbs s e hbest with ⟨_, hch⟩
    have hch2 : Reaches q (r ++ t) (q.length - 1) s e := hch.append_right
    rcases minspan.span_main (r ++ t) hq with ⟨si2, best2, hrun2, hspan2, J2, hJ2, hinv2⟩
    obtain ⟨hlen2, hsnd2, hmax2, hbs2, hbm2, hff2⟩ := hinv2
    rcases hbm2 s e (lt_of_lt_of_le hch2.end_lt_length hJ2) hch2 with ⟨bs, be, hsome, hble⟩
    exact ⟨bs, be, by rw [hspan2, hsome], hble⟩

/-- Witness for C7 at query `[0, 1]`, reference `[0, 2, 1]`, extension `[5]`. -/
theorem span_append_mono_witness :
    ∃ s' e', minspan.span ([0, 1] : List Nat) ([0, 2, 1] ++ [5]) =
      Except.ok (some (s', e')) ∧ e' - s' ≤ 2 - 0 :=
  span_append_mono [0, 1] [0, 2, 1] [5] 0 2 (by rfl)

/-- C9.  `start_indices` invariants during one invocation: comparing the scan
state after processing a prefix `p` with the state one step later (after
`p ++ [c]`), a slot that holds `Some` never reverts to `None`; every stored
start is below the number of positions scanned (hence at most the reference
index at which it was stored); and a `Some` slot at level `k > 0` always sits
above a `Some` slot at level `k - 1` — so the update
`start_indices[k] = start_indices[k-1]` can only overwrite a `Some` slot with
another `Some` value. -/
theorem start_indices_invariant {α : Type} [DecidableEq α] (q p : List α) (c : α)
    (si si' : List (Option Nat)) (best best' : Option (Nat × Nat)) (hq : q ≠ [])
    (h1 : minspan.outerLoop q p 0 (List.replicate q.length none) none =
      Except.ok (si, best))
    (h2 : minspan.outerLoop q (p ++ [c]) 0 (List.replicate q.length none) none =
      Except.ok (si', best')) :
    (∀ (k s : Nat), si[k]? = some (some s) → ∃ s2, si'[k]? = some (some s2)) ∧
    (∀ (k s : Nat), si[k]? = some (some s) → s < p.length) ∧
    (∀ (k s : Nat), 0 < k → si[k]? = some (some s) → ∃ s2, si[k - 1]? = some (some s2)) := by
  have hm : 1 ≤ q.length := by
    cases q with
    | nil => exact absurd rfl hq
    | cons a l => simp
  rcases minspan.outer_inv (r := p) hm p 0 (List.replicate q.length none) none
    minspan.inv_init rfl with ⟨siA, bestA, hrunA, J, hJle, hinvA⟩
  rw [h1] at hrunA
  obtain ⟨hsiA, hbestA⟩ : siA = si ∧ bestA = best := by
    have h3 := (Except.ok.inj hrunA).symm
    exact ⟨congrArg Prod.fst h3, congrArg Prod.snd h3⟩
  subst hsiA
  subst hbestA
  obtain ⟨hlen, hsnd, hmax, hbs, hbm, hff⟩ := hinvA
  rcases minspan.outer_inv (r := p ++ [c]) hm (p ++ [c]) 0 (List.replicate q.length none)
    none minspan.inv_init rfl with ⟨siB, bestB, hrunB, J2, hJ2, hinvB⟩
  rw [h2] at hrunB
  obtain ⟨hsiB, hbestB⟩ : siB = si' ∧ bestB = best' := by
    have h3 := (Except.ok.inj hrunB).symm
    exact ⟨congrArg Prod.fst h3, congrArg Prod.snd h3⟩
  subst hsiB
  subst hbestB
  obtain ⟨hlen2, hsnd2, hmax2, hbs2, hbm2, hff2⟩ := hinvB
  refine ⟨?_, ?_, ?_⟩
  · intro k s hget
    rcases hsnd k s hget with ⟨e, heJ, hch⟩
    have hch2 : Reaches q (p ++ [c]) k s e := hch.append_right
    have he2 : e < J2 := lt_of_lt_of_le hch2.end_lt_length hJ2
    rcases hmax2 k s e he2 hch2 with ⟨s2, hs2, _⟩
    exact ⟨s2, hs2⟩
  · intro k s hget
    rcases hsnd k s hget with ⟨e, heJ, hch⟩
    have h3 := hch.start_le_end
    have h4 := hch.end_lt_length
    omega
  · intro k s hk hget
    rcases hsnd k s hget with ⟨e, heJ, hch⟩
    obtain ⟨k0, hk0⟩ : ∃ k0, k = k0 + 1 := ⟨k - 1, by omega⟩
    subst hk0
    rcases hch.succ_chop with ⟨e1, he1, hch1⟩
    have he1J : e1 < J := lt_of_lt_of_le hch1.end_lt_length hJle
    rcases hmax k0 s e1 he1J hch1 with ⟨s2, hs2, _⟩
    exact ⟨s2, by simpa using hs2⟩

/-- Witness for C9 at query `[0, 1]`, prefix `[0]`, next element `1`. -/
theorem start_indices_invariant_witness :
    ∃ s2, ([some 0, some 0] : List (Option Nat))[0]? = some (some s2) :=
  (start_indices_invariant ([0, 1] : List Nat) [0] 1 [some 0, none] [some 0, some 0]
    none (some (0, 1)) (by decide) (by rfl) (by rfl)).1 0 0 (by rfl)

/-- C10.  Single-element queries: `span [x] r` returns `Some (j, j)` where
`j` is the index of the first occurrence of `x` in `r`, and the absent
result when `x` does not occur in `r`. -/
theorem span_singleton {α : Type} [DecidableEq α] (x : α) (r : List α) (j : Nat) :
    (r[j]? = some x → (∀ i, i < j → ¬ r[i]? = some x) →
      minspan.span [x] r = Except.ok (some (j, j))) ∧
    (¬ x ∈ r → minspan.span [x] r = Except.ok none) := by
  have hq : ([x] : List α) ≠ [] := by simp
  rcases minspan.span_main (q := [x]) r hq with ⟨si, best, hrun, hspan, J, hJle, hinv⟩
  obtain ⟨hlen, hsnd, hmax, hbs, hbm, hff⟩ := hinv
  constructor
  · intro hj hfirst
    have hch : Reaches ([x] : List α) r 0 j j := Reaches.base (by simp) hj
    have hchJ : j < J := lt_of_lt_of_le hch.end_lt_length hJle
    rcases hbm j j hchJ hch with ⟨bs, be, hsome, hble⟩
    rcases hbs bs be hsome with ⟨hbeJ, hchb⟩
    have hbse : bs = be := hchb.zero_eq
    rcases hchb.end_matches with ⟨a, hqa, hra⟩
    have hax : a = x := by
      simp at hqa
      exact hqa.symm
    rw [hax] at hra
    have hbej : be = j := by
      rcases Nat.lt_trichotomy be j with hlt | heq | hgt
      · exact absurd hra (hfirst be hlt)
      · exact heq
      · have := hff bs be j j hsome hch hgt
        omega
    rw [hspan, hsome, hbse, hbej]
  · intro hnx
    match hbest2 : best with
    | none => exact hspan
    | some (s, e) =>
        rcases hbs s e rfl with ⟨_, hch⟩
        rcases hch.end_matches with ⟨a, hqa, hra⟩
        have hax : a = x := by
          simp at hqa
          exact hqa.symm
        rw [hax] at hra
        exact absurd (List.getElem?_mem hra) hnx

/-- Witness for C10 at `x = 1`, reference `[0, 1, 1]` (first occurrence at
index 1). -/
theorem span_singleton_witness :
    minspan.span ([1] : List Nat) [0, 1, 1] = Except.ok (some (1, 1)) :=
  (span_singleton 1 [0, 1, 1] 1).1 (by rfl) (by decide)
